import Mathlib

set_option maxRecDepth 100000

/-!
Verification of the TagManagerMedium Cloudflare worker
(`src/GTM-Medium_Worker.js`).

The worker rewrites a streaming HTML response, splicing a fixed Tag
Manager snippet immediately before the `</head>` marker.  We model the
pipeline shallowly:

* bytes and Unicode scalar values are `Nat`;
* JS strings are lists of scalar values (`List Nat`);
* the strict incremental `TextDecoder("utf-8", \x7bfatal: true\x7d)` is
  `utf8Run` (decoded scalars plus the pending incomplete suffix kept as
  decoder state, `none` on an invalid byte sequence);
* `TextEncoder` is `utf8Encode`;
* the JS regular expressions used by the charset gate are translated to
  a small backtracking matcher (`matchItems` / `execSearch`) with
  greedy quantifiers and leftmost search, matching the semantics of
  `RegExp.exec`; the `i` flag and `toLowerCase` are modelled by ASCII
  case folding, which is exact on the ASCII charset tokens involved;
* the per-stream state (`firstChunk`, `unsupportedCharset`, decoder
  pending bytes) is `WState`, a chunk step is `stepChunk`, and
  `modifyHtmlStream` folds it over the list of delivered body chunks,
  producing the concatenated bytes written to the output sink.
-/

/-- Scalar values of a Lean string literal, used to transcribe the JS
string constants of the worker. -/
def str (s : String) : List Nat := s.data.map Char.toNat

/-- ASCII case folding on one scalar value. -/
def asciiLower (c : Nat) : Nat := if 65 ≤ c ∧ c ≤ 90 then c + 32 else c

/-- Models `String.prototype.toLowerCase` restricted to ASCII (exact for
the charset tokens compared against the allow-list). -/
def jsToLower (s : List Nat) : List Nat := s.map asciiLower

/-- The character class `\s` of JS regular expressions. -/
def isJsSpace (c : Nat) : Bool :=
  decide (c = 32 ∨ c = 9 ∨ c = 10 ∨ c = 11 ∨ c = 12 ∨ c = 13 ∨ c = 160 ∨
    c = 5760 ∨ (8192 ≤ c ∧ c ≤ 8202) ∨ c = 8232 ∨ c = 8233 ∨ c = 8239 ∨
    c = 8287 ∨ c = 12288 ∨ c = 65279)

/-! ## Strict streaming UTF-8 decoding and encoding

`decodeOne` decodes one scalar value from the front of a byte list,
following the WHATWG UTF-8 decoder (the ranges enforced by a fatal
`TextDecoder`): `ok c k` consumes `k` bytes yielding scalar `c`,
`incomplete` means the whole list is a proper prefix of a valid
sequence, `bad` is a fatal decode error.  It inspects at most four
bytes, so it is written by cases on up to four leading bytes. -/

/-- Is `c` a UTF-8 continuation byte? -/
def isCont (c : Nat) : Bool := decide (128 ≤ c ∧ c ≤ 191)

/-- Admissible second byte of a three-byte sequence with lead byte `b`. -/
def snd3ok (b c : Nat) : Bool :=
  if b = 224 then decide (160 ≤ c ∧ c ≤ 191)
  else if b = 237 then decide (128 ≤ c ∧ c ≤ 159)
  else isCont c

/-- Admissible second byte of a four-byte sequence with lead byte `b`. -/
def snd4ok (b c : Nat) : Bool :=
  if b = 240 then decide (144 ≤ c ∧ c ≤ 191)
  else if b = 244 then decide (128 ≤ c ∧ c ≤ 143)
  else isCont c

/-- Is `b` the lead byte of a two-byte sequence? -/
def lead2 (b : Nat) : Bool := decide (194 ≤ b ∧ b ≤ 223)

/-- Is `b` the lead byte of a three-byte sequence? -/
def lead3 (b : Nat) : Bool := decide (224 ≤ b ∧ b ≤ 239)

/-- Is `b` the lead byte of a four-byte sequence? -/
def lead4 (b : Nat) : Bool := decide (240 ≤ b ∧ b ≤ 244)

/-- Result of decoding one scalar from the front of a byte list. -/
inductive DecodeOne where
  | ok (c : Nat) (k : Nat)
  | incomplete
  | bad
deriving DecidableEq

/-- `decodeOne` on a single available byte. -/
def decodeOne1 (b : Nat) : DecodeOne :=
  if b < 128 then .ok b 1
  else if lead2 b || lead3 b || lead4 b then .incomplete
  else .bad

/-- `decodeOne` on two available bytes. -/
def decodeOne2 (b c : Nat) : DecodeOne :=
  if b < 128 then .ok b 1
  else if lead2 b then
    if isCont c then .ok ((b - 192) * 64 + (c - 128)) 2 else .bad
  else if lead3 b then
    if snd3ok b c then .incomplete else .bad
  else if lead4 b then
    if snd4ok b c then .incomplete else .bad
  else .bad

/-- `decodeOne` on three available bytes. -/
def decodeOne3 (b c d : Nat) : DecodeOne :=
  if b < 128 then .ok b 1
  else if lead2 b then
    if isCont c then .ok ((b - 192) * 64 + (c - 128)) 2 else .bad
  else if lead3 b then
    if snd3ok b c then
      if isCont d then .ok ((b - 224) * 4096 + (c - 128) * 64 + (d - 128)) 3
      else .bad
    else .bad
  else if lead4 b then
    if snd4ok b c then
      if isCont d then .incomplete else .bad
    else .bad
  else .bad

/-- `decodeOne` on four (or more) available bytes. -/
def decodeOne4 (b c d e : Nat) : DecodeOne :=
  if b < 128 then .ok b 1
  else if lead2 b then
    if isCont c then .ok ((b - 192) * 64 + (c - 128)) 2 else .bad
  else if lead3 b then
    if snd3ok b c then
      if isCont d then .ok ((b - 224) * 4096 + (c - 128) * 64 + (d - 128)) 3
      else .bad
    else .bad
  else if lead4 b then
    if snd4ok b c then
      if isCont d then
        if isCont e then
          .ok ((b - 240) * 262144 + (c - 128) * 4096 + (d - 128) * 64 +
            (e - 128)) 4
        else .bad
      else .bad
    else .bad
  else .bad

/-- Decode one UTF-8 scalar from the front of a byte list. -/
def decodeOne : List Nat → DecodeOne
  | [] => .incomplete
  | [b] => decodeOne1 b
  | [b, c] => decodeOne2 b c
  | [b, c, d] => decodeOne3 b c d
  | b :: c :: d :: e :: _ => decodeOne4 b c d e

/-- Feed one byte into the decoder's buffered partial sequence
`pending`: `some (some c, p)` emits scalar `c` (with new buffer `p`),
`some (none, p)` just buffers, `none` is a fatal decode error. -/
def utf8Step (pending : List Nat) (b : Nat) : Option (Option Nat × List Nat) :=
  match decodeOne (pending ++ [b]) with
  | .ok c _ => some (some c, [])
  | .incomplete => some (none, pending ++ [b])
  | .bad => none

/-- Strict streaming decode: feed `input` byte-by-byte into a decoder
whose buffered state is `pending`; return the emitted scalar values and
the final buffered state, or `none` on a fatal decode error.  Models
`TextDecoder("utf-8", \x7bfatal: true\x7d).decode(input, \x7bstream: true\x7d)`. -/
def utf8Run : List Nat → List Nat → Option (List Nat × List Nat)
  | pending, [] => some ([], pending)
  | pending, b :: rest =>
    match utf8Step pending b with
    | none => none
    | some (none, p) => utf8Run p rest
    | some (some c, p) =>
      match utf8Run p rest with
      | some (t, pf) => some (c :: t, pf)
      | none => none

/-- UTF-8 encoding of one scalar value. -/
def utf8EncodeChar (c : Nat) : List Nat :=
  if c < 128 then [c]
  else if c < 2048 then [192 + c / 64, 128 + c % 64]
  else if c < 65536 then [224 + c / 4096, 128 + (c / 64) % 64, 128 + c % 64]
  else [240 + c / 262144, 128 + (c / 4096) % 64, 128 + (c / 64) % 64,
    128 + c % 64]

/-- Models `TextEncoder.encode` on a list of scalar values. -/
def utf8Encode (s : List Nat) : List Nat := (s.map utf8EncodeChar).flatten

example : utf8Run [] (str "ab") = some (str "ab", []) := by decide
example : utf8Run [] [97, 195] = some ([97], [195]) := by decide
example : utf8Run [195] [169, 98] = some ([233, 98], []) := by decide
example : utf8Run [] [195, 169] = some ([233], []) := by decide
example : utf8Run [] [233, 120] = none := by decide
example : utf8Run [] [224, 128] = none := by decide
example : utf8Run [] [237, 159, 191] = some ([55295], []) := by decide
example : utf8Run [] [240, 144, 128, 128] = some ([65536], []) := by decide
example : utf8Encode [233] = [195, 169] := by decide
example : utf8Encode [65536] = [240, 144, 128, 128] := by decide

/-! ## A backtracking matcher for the worker's regular expressions

The worker uses four regular expressions, all of the same simple shape:
a sequence of case-insensitive literals, single-character classes and
greedy starred/plussed classes, with at most one capturing group (over
a starred or plussed class).  `matchItems` matches such a pattern at
the head of the subject with JS backtracking semantics (greedy
quantifiers, longest-first backtracking) and returns the capture of the
group together with the remaining subject; `execSearch` finds the
leftmost match, as `RegExp.exec` does on a fresh regex. -/

/-- One item of a regular-expression pattern. -/
inductive PatItem where
  | lit : List Nat → PatItem
  | one : (Nat → Bool) → PatItem
  | star : (Nat → Bool) → PatItem
  | plus : (Nat → Bool) → PatItem
  | gstar : (Nat → Bool) → PatItem
  | gplus : (Nat → Bool) → PatItem

/-- Greedy backtracking for a starred class: `pre` is the reversed list
of characters currently munched by the star, `rest` the remaining
subject.  Try the continuation `f` on `rest`; on failure give back one
munched character and retry.  When `capture = some cp` the star is the
capturing group and the final capture is `cp ++ pre.reverse`. -/
def backtrackSearch (f : List Nat → Option (List Nat × List Nat))
    (capture : Option (List Nat)) :
    List Nat → List Nat → Option (List Nat × List Nat)
  | pre, rest =>
    match f rest with
    | some (g, r) =>
      some ((match capture with
             | some cp => cp ++ pre.reverse
             | none => g), r)
    | none =>
      match pre with
      | [] => none
      | c :: pre2 => backtrackSearch f capture pre2 (c :: rest)

/-- Case-insensitive (ASCII-folded) literal comparison. -/
def litMatches (l s : List Nat) : Bool := jsToLower l == jsToLower s

/-- Match a pattern at the head of subject `s`; return the capture of
the (single) group and the remaining subject after the match. -/
def matchItems : List PatItem → List Nat → Option (List Nat × List Nat)
  | [], s => some ([], s)
  | .lit l :: ps, s =>
    if litMatches l (s.take l.length) ∧ l.length ≤ s.length then
      matchItems ps (s.drop l.length)
    else none
  | .one p :: ps, s =>
    match s with
    | [] => none
    | c :: s2 => if p c then matchItems ps s2 else none
  | .star p :: ps, s =>
    backtrackSearch (fun r => matchItems ps r) none
      ((s.takeWhile p).reverse) (s.drop (s.takeWhile p).length)
  | .plus p :: ps, s =>
    match s with
    | [] => none
    | c :: s2 =>
      if p c then
        backtrackSearch (fun r => matchItems ps r) none
          ((s2.takeWhile p).reverse) (s2.drop (s2.takeWhile p).length)
      else none
  | .gstar p :: ps, s =>
    backtrackSearch (fun r => matchItems ps r) (some [])
      ((s.takeWhile p).reverse) (s.drop (s.takeWhile p).length)
  | .gplus p :: ps, s =>
    match s with
    | [] => none
    | c :: s2 =>
      if p c then
        backtrackSearch (fun r => matchItems ps r) (some [c])
          ((s2.takeWhile p).reverse) (s2.drop (s2.takeWhile p).length)
      else none

/-- Leftmost search: try a match at every start position, earliest
first; return the whole matched text and the group capture.  Models
`regex.exec(s)` on a freshly created regex (`lastIndex = 0`). -/
def execSearch (pat : List PatItem) (s : List Nat) :
    Option (List Nat × List Nat) :=
  match matchItems pat s with
  | some (g, rest) => some (s.take (s.length - rest.length), g)
  | none =>
    match s with
    | [] => none
    | _ :: s2 => execSearch pat s2

/-- The regex `charset\s*=\s*([^\s;]+)` (flags `mgi`) used on the
content-type header in `processHtmlResponse`. -/
def headerCharsetPat : List PatItem :=
  [.lit (str "charset"), .star isJsSpace, .lit (str "="),
   .star isJsSpace, .gplus (fun c => !isJsSpace c && c != 59)]

/-- The regex `<\s*meta[^>]+charset\s*=\s*['"]([^'"]*)['"][^>]*>`
(flags `mgi`) used on the first decoded chunk. -/
def metaCharsetTagPat : List PatItem :=
  [.lit (str "<"), .star isJsSpace, .lit (str "meta"),
   .plus (fun c => c != 62), .lit (str "charset"), .star isJsSpace,
   .lit (str "="), .star isJsSpace, .one (fun c => c == 39 || c == 34),
   .gstar (fun c => c != 39 && c != 34),
   .one (fun c => c == 39 || c == 34), .star (fun c => c != 62),
   .lit (str ">")]

/-- The regex `<\s*meta[^>]+http-equiv\s*=\s*['"]\s*content-type[^>]*>`
(flags `mgi`) used on the first decoded chunk. -/
def metaHttpEquivPat : List PatItem :=
  [.lit (str "<"), .star isJsSpace, .lit (str "meta"),
   .plus (fun c => c != 62), .lit (str "http-equiv"), .star isJsSpace,
   .lit (str "="), .star isJsSpace, .one (fun c => c == 39 || c == 34),
   .star isJsSpace, .lit (str "content-type"), .star (fun c => c != 62),
   .lit (str ">")]

/-- The regex `charset\s*=\s*([^\s"]*)` (flags `mgi`) applied to the
text matched by `metaHttpEquivPat`. -/
def metaContentCharsetPat : List PatItem :=
  [.lit (str "charset"), .star isJsSpace, .lit (str "="),
   .star isJsSpace, .gstar (fun c => !isJsSpace c && c != 34)]

example :
    execSearch headerCharsetPat (str "text/html; charset=shift_jis") =
      some (str "charset=shift_jis", str "shift_jis") := by decide
example :
    execSearch headerCharsetPat (str "text/html; Charset = UTF-8 ;x") =
      some (str "Charset = UTF-8", str "UTF-8") := by decide
example : execSearch headerCharsetPat (str "text/html") = none := by decide

/-! ## The worker's constants and per-stream pipeline -/

/-- `VALID_CHARSETS`: the character encodings the worker can decode
(`['utf-8', 'utf8', 'iso-8859-1', 'us-ascii']`). -/
def VALID_CHARSETS : List (List Nat) :=
  [str "utf-8", str "utf8", str "iso-8859-1", str "us-ascii"]

/-- `TAG_MANAGER`: the Tag Manager snippet spliced before `</head>`
(braces written `\x7b`/`\x7d` and quotes `\x27`, text unchanged). -/
def TAG_MANAGER : List Nat :=
  str "<script>(function(w,d,s,l,i)\x7bw[l]=w[l]||[];w[l].push(\x7b\x27gtm.start\x27:\nnew Date().getTime(),event:\x27gtm.js\x27\x7d);var f=d.getElementsByTagName(s)[0],\nj=d.createElement(s),dl=l!=\x27dataLayer\x27?\x27&l=\x27+l:\x27\x27;j.async=true;j.src=\n\x27https://www.googletagmanager.com/gtm.js?id=\x27+i+dl;f.parentNode.insertBefore(j,f);\n\x7d)(window,document,\x27script\x27,\x27dataLayer\x27,\x27GTM-XXXXXXX\x27);</script>"

/-- The injection marker `'</head>'`. -/
def headMarker : List Nat := str "</head>"

/-- `chunkContainsInvalidCharset(chunk)`: does the decoded chunk contain
a meta tag declaring an unsupported charset?  Mirrors the two regex
checks of the source, `invalid` being their disjunction. -/
def chunkContainsInvalidCharset (chunk : List Nat) : Bool :=
  let invalidMeta :=
    match execSearch metaCharsetTagPat chunk with
    | some (_, docCharset) =>
      !(VALID_CHARSETS.contains (jsToLower docCharset))
    | none => false
  let invalidContentType :=
    match execSearch metaHttpEquivPat chunk with
    | some (metaTag, _) =>
      match execSearch metaContentCharsetPat metaTag with
      | some (_, cs) => !(VALID_CHARSETS.contains (jsToLower cs))
      | none => false
    | none => false
  invalidMeta || invalidContentType

/-- First index at which `needle` occurs in `hay` (JS
`hay.indexOf(needle)`, with `none` for `-1`). -/
def listIndexOf (needle : List Nat) : List Nat → Option Nat
  | [] => if needle.isEmpty then some 0 else none
  | h :: t =>
    if needle.isPrefixOf (h :: t) then some 0
    else (listIndexOf needle t).map (· + 1)

/-- The scan/splice step applied to one decoded chunk: find the first
`</head>` and splice `TAG_MANAGER` immediately before it
(`[content.slice(0,headPos), TAG_MANAGER, content.slice(headPos)].join('')`). -/
def injectSnippet (content : List Nat) : List Nat :=
  match listIndexOf headMarker content with
  | some headPos => content.take headPos ++ TAG_MANAGER ++ content.drop headPos
  | none => content

/-- Per-stream mutable state of `modifyHtmlStream`: the `firstChunk` and
`unsupportedCharset` flags and the decoder's buffered bytes. -/
structure WState where
  firstChunk : Bool
  unsupportedCharset : Bool
  pending : List Nat
deriving DecidableEq

/-- The initial state of a stream. -/
def initWState : WState := ⟨true, false, []⟩

/-- One iteration of the read loop of `modifyHtmlStream` on chunk
`value`: returns the updated state and the bytes written for this chunk.
In passthrough mode the raw bytes are forwarded; on decode failure the
stream switches to passthrough and forwards the raw bytes; on the first
chunk an unsupported meta charset likewise switches to passthrough;
otherwise the decoded text is scanned/spliced and re-encoded. -/
def stepChunk (st : WState) (value : List Nat) : WState × List Nat :=
  if st.unsupportedCharset then (st, value)
  else
    match utf8Run st.pending value with
    | none => (⟨st.firstChunk, true, st.pending⟩, value)
    | some (chunk, p) =>
      if st.firstChunk && chunkContainsInvalidCharset chunk then
        (⟨false, true, p⟩, value)
      else
        (⟨false, st.unsupportedCharset, p⟩, utf8Encode (injectSnippet chunk))

/-- Run the read loop over the remaining chunks, concatenating the
written bytes. -/
def runChunks : WState → List (List Nat) → WState × List Nat
  | st, [] => (st, [])
  | st, v :: vs =>
    let so := stepChunk st v
    let rest := runChunks so.1 vs
    (rest.1, so.2 ++ rest.2)

/-- `modifyHtmlStream`: the bytes written to the output sink for a body
delivered as `chunks`. -/
def modifyHtmlStream (chunks : List (List Nat)) : List Nat :=
  (runChunks initWState chunks).2

/-- `processHtmlResponse`: extract a `charset=` token from the
content-type header; if present and unsupported, return the original
response (the raw body bytes), otherwise stream the body through
`modifyHtmlStream`. -/
def processHtmlResponse (contentType : List Nat)
    (chunks : List (List Nat)) : List Nat :=
  match execSearch headerCharsetPat contentType with
  | some (_, cs) =>
    if VALID_CHARSETS.contains (jsToLower cs) then modifyHtmlStream chunks
    else chunks.flatten
  | none => modifyHtmlStream chunks

/-- `processRequest`: engage the HTML path only when the status is 200
and the content-type header contains `text/html`; forward every other
response unmodified. -/
def processRequest (status : Nat) (contentType : Option (List Nat))
    (chunks : List (List Nat)) : List Nat :=
  if status = 200 then
    match contentType with
    | some ct =>
      if (listIndexOf (str "text/html") ct).isSome then
        processHtmlResponse ct chunks
      else chunks.flatten
    | none => chunks.flatten
  else chunks.flatten

example :
    chunkContainsInvalidCharset (str "<meta charset=\x22windows-1251\x22>") =
      true := by decide
example :
    chunkContainsInvalidCharset (str "<meta charset=\x22UTF-8\x22><p>") =
      false := by decide
example :
    chunkContainsInvalidCharset
      (str "<meta http-equiv=\x22Content-Type\x22 content=\x22text/html; charset=koi8-r\x22>") =
      true := by decide
example :
    chunkContainsInvalidCharset (str "<html><head><p>hello") = false := by
  decide
example :
    modifyHtmlStream [str "<head></head>"] =
      str "<head>" ++ TAG_MANAGER ++ str "</head>" := by decide

/-! ## Auxiliary notions used to state the claims -/

/-- The decoded text of each chunk along a run that never switches to
passthrough, together with the final buffered decoder bytes: `none` if
some chunk fails to decode or the first chunk's meta-charset sniff
flags an unsupported charset (i.e. if the run enters passthrough). -/
def scanTextsFrom : Bool → List Nat → List (List Nat) →
    Option (List (List Nat) × List Nat)
  | _, pending, [] => some ([], pending)
  | fc, pending, v :: vs =>
    match utf8Run pending v with
    | none => none
    | some (t, p) =>
      if fc && chunkContainsInvalidCharset t then none
      else
        match scanTextsFrom false p vs with
        | some (ts, pf) => some (t :: ts, pf)
        | none => none

/-- Number of occurrences of `needle` in `hay` (number of positions at
which `needle` is a prefix of the corresponding suffix of `hay`). -/
def countSubstr : List Nat → List Nat → Nat
  | [], needle => if needle.isEmpty then 1 else 0
  | h :: t, needle =>
    (if needle.isPrefixOf (h :: t) then 1 else 0) + countSubstr t needle

/-- `n` has no nontrivial self-overlap: no proper nonempty suffix of `n`
is also a prefix of `n`. -/
def borderFree (n : List Nat) : Bool :=
  (List.range n.length).all
    (fun k => decide (k = 0) || !((n.drop k).isPrefixOf n))

example : countSubstr (str "abcabca") (str "abca") = 2 := by decide
example : borderFree headMarker = true := by decide
example : borderFree (str "aba") = false := by decide

/-! ## Exceptions during the scan/splice step (claim C7)

The inner `try` of the read loop wraps the first-chunk meta-charset
sniff and the marker search/splice; its `catch` ignores the exception
and the loop proceeds to write whatever `content` holds.  To reason
about this counterfactually we thread an explicit exception oracle
through the step: `duringSniff` means the `chunkContainsInvalidCharset`
call raises (only possible on the first chunk, before `content = chunk`
is assigned), `duringSearch` means the marker search/splice raises
(after `content = chunk`). -/

/-- Where, if anywhere, the scan/splice step raises on this chunk. -/
inductive SpliceExc where
  | duringSniff
  | duringSearch
deriving DecidableEq

/-- `stepChunk` with an exception oracle for the inner `try` block.
With `exc = none` this is exactly `stepChunk`. -/
def stepChunkExc (st : WState) (value : List Nat)
    (exc : Option SpliceExc) : WState × List Nat :=
  if st.unsupportedCharset then (st, value)
  else
    match utf8Run st.pending value with
    | none => (⟨st.firstChunk, true, st.pending⟩, value)
    | some (chunk, p) =>
      if st.firstChunk then
        match exc with
        | some .duringSniff => (⟨false, false, p⟩, [])
        | _ =>
          if chunkContainsInvalidCharset chunk then (⟨false, true, p⟩, value)
          else
            match exc with
            | some .duringSearch => (⟨false, false, p⟩, utf8Encode chunk)
            | _ => (⟨false, false, p⟩, utf8Encode (injectSnippet chunk))
      else
        match exc with
        | some .duringSearch => (⟨false, false, p⟩, utf8Encode chunk)
        | _ => (⟨false, false, p⟩, utf8Encode (injectSnippet chunk))

/-- Run the read loop with a per-chunk exception oracle. -/
def runChunksExc : WState → List (List Nat) → List (Option SpliceExc) →
    WState × List Nat
  | st, [], _ => (st, [])
  | st, v :: vs, es =>
    let so := stepChunkExc st v (es.headD none)
    let rest := runChunksExc so.1 vs es.tail
    (rest.1, so.2 ++ rest.2)

/-! ## The output-sink operation trace (claim C8)

`modifyHtmlStream` wraps its whole read loop in a `try` whose `catch`
ignores the exception, and then closes the writer inside a second
`try`/`catch` that also ignores exceptions.  To state that the sink is
always closed we record the sequence of sink operations attempted,
under an oracle describing which `reader.read`, `writer.write` and
`writer.close` calls reject.  A rejected read or write inside the outer
`try` aborts the loop (except the write inside the inner `try`, whose
rejection is swallowed and the loop continues); the close is attempted
regardless and its rejection is swallowed. -/

/-- An operation attempted on the output sink. -/
inductive SinkOp where
  | write : List Nat → SinkOp
  | close : SinkOp
deriving BEq, DecidableEq

/-- Which I/O calls reject: `readErr i` (resp. `writeErr i`) means the
`i`-th read (resp. write) call rejects, `closeErr` that the close
rejects. -/
structure IoErrs where
  readErr : Nat → Bool
  writeErr : Nat → Bool
  closeErr : Bool

/-- The read loop of `modifyHtmlStream` instrumented with the sink
operations it attempts, given read/write counters `r` and `w`. -/
def streamOpsLoop (errs : IoErrs) : WState → Nat → Nat → List (List Nat) →
    List SinkOp
  | _, _, _, [] => [SinkOp.close]
  | st, r, w, v :: vs =>
    if errs.readErr r then [SinkOp.close]
    else if st.unsupportedCharset then
      SinkOp.write v ::
        (if errs.writeErr w then [SinkOp.close]
         else streamOpsLoop errs st (r + 1) (w + 1) vs)
    else
      match utf8Run st.pending v with
      | none =>
        SinkOp.write v ::
          (if errs.writeErr w then [SinkOp.close]
           else streamOpsLoop errs ⟨st.firstChunk, true, st.pending⟩
             (r + 1) (w + 1) vs)
      | some (chunk, p) =>
        if st.firstChunk && chunkContainsInvalidCharset chunk then
          SinkOp.write v :: streamOpsLoop errs ⟨false, true, p⟩
            (r + 1) (w + 1) vs
        else
          let content := injectSnippet chunk
          if content.isEmpty then
            streamOpsLoop errs ⟨false, st.unsupportedCharset, p⟩ (r + 1) w vs
          else
            SinkOp.write (utf8Encode content) ::
              (if errs.writeErr w then [SinkOp.close]
               else streamOpsLoop errs ⟨false, st.unsupportedCharset, p⟩
                 (r + 1) (w + 1) vs)

/-- The sink operations attempted by `modifyHtmlStream` for a body
delivered as `chunks` under the I/O error oracle `errs`. -/
def modifyHtmlStreamOps (errs : IoErrs) (chunks : List (List Nat)) :
    List SinkOp :=
  streamOpsLoop errs initWState 0 0 chunks

/-! ## Decoder lemmas -/

/-- A decoder buffer is either empty or a valid incomplete prefix. -/
def PendingOk (p : List Nat) : Prop := p = [] ∨ decodeOne p = .incomplete

theorem pendingOk_nil : PendingOk [] := Or.inl rfl

theorem utf8Encode_append (a b : List Nat) :
    utf8Encode (a ++ b) = utf8Encode a ++ utf8Encode b := by
  simp [utf8Encode]

theorem utf8Step_pendingOk {p : List Nat} {b : Nat} {o : Option Nat}
    {q : List Nat} (h : utf8Step p b = some (o, q)) : PendingOk q := by
  unfold utf8Step at h
  split at h
  · cases h; exact Or.inl rfl
  · cases h; exact Or.inr (by assumption)
  · cases h

theorem decodeOne4_ne_incomplete (b c d e : Nat) :
    decodeOne4 b c d e ≠ .incomplete := by
  unfold decodeOne4
  split_ifs <;> simp

/-- Bounds extracted from a valid second byte of a three-byte lead. -/
theorem snd3ok_bounds {b c : Nat} (h : snd3ok b c = true) :
    128 ≤ c ∧ c ≤ 191 ∧ (b = 224 → 160 ≤ c) := by
  unfold snd3ok at h
  split_ifs at h <;> simp only [decide_eq_true_eq, isCont] at h <;> omega

/-- Bounds extracted from a valid second byte of a four-byte lead. -/
theorem snd4ok_bounds {b c : Nat} (h : snd4ok b c = true) :
    128 ≤ c ∧ c ≤ 191 ∧ (b = 240 → 144 ≤ c) := by
  unfold snd4ok at h
  split_ifs at h <;> simp only [decide_eq_true_eq, isCont] at h <;> omega

theorem ok1_inv {b c k : Nat} (h : decodeOne1 b = .ok c k) :
    b < 128 ∧ c = b ∧ k = 1 := by
  unfold decodeOne1 at h
  split_ifs at h <;> try simp at h
  · exact ⟨by assumption, h.1.symm, h.2.symm⟩

theorem inc1_inv {b : Nat} (h : decodeOne1 b = .incomplete) :
    194 ≤ b ∧ b ≤ 244 := by
  unfold decodeOne1 at h
  split_ifs at h <;> try simp at h
  simp_all [lead2, lead3, lead4]
  omega

theorem ok2_inv {b1 b c k : Nat} (h : decodeOne2 b1 b = .ok c k) :
    (b1 < 128 ∧ c = b1 ∧ k = 1) ∨
    (194 ≤ b1 ∧ b1 ≤ 223 ∧ 128 ≤ b ∧ b ≤ 191 ∧
      c = (b1 - 192) * 64 + (b - 128) ∧ k = 2) := by
  unfold decodeOne2 at h
  split_ifs at h <;> try simp at h
  · exact Or.inl ⟨by assumption, h.1.symm, h.2.symm⟩
  · refine Or.inr ?_
    simp_all [lead2, isCont]
    all_goals omega

theorem inc2_inv {b1 b2 : Nat} (h : decodeOne2 b1 b2 = .incomplete) :
    (224 ≤ b1 ∧ b1 ≤ 239 ∧ snd3ok b1 b2 = true) ∨
    (240 ≤ b1 ∧ b1 ≤ 244 ∧ snd4ok b1 b2 = true) := by
  unfold decodeOne2 at h
  split_ifs at h <;> try simp at h
  · refine Or.inl ?_
    simp_all [lead3]
    all_goals omega
  · refine Or.inr ?_
    simp_all [lead4]
    all_goals omega

theorem ok3_inv {b1 b2 b c k : Nat} (h : decodeOne3 b1 b2 b = .ok c k) :
    (b1 < 128 ∧ c = b1 ∧ k = 1) ∨
    (194 ≤ b1 ∧ b1 ≤ 223 ∧ 128 ≤ b2 ∧ b2 ≤ 191 ∧
      c = (b1 - 192) * 64 + (b2 - 128) ∧ k = 2) ∨
    (224 ≤ b1 ∧ b1 ≤ 239 ∧ snd3ok b1 b2 = true ∧ 128 ≤ b ∧ b ≤ 191 ∧
      c = (b1 - 224) * 4096 + (b2 - 128) * 64 + (b - 128) ∧ k = 3) := by
  unfold decodeOne3 at h
  split_ifs at h <;> try simp at h
  · exact Or.inl ⟨by assumption, h.1.symm, h.2.symm⟩
  · refine Or.inr (Or.inl ?_)
    simp_all [lead2, isCont]
    all_goals omega
  · refine Or.inr (Or.inr ?_)
    simp_all [lead3, isCont]
    all_goals omega

theorem inc3_inv {b1 b2 b3 : Nat} (h : decodeOne3 b1 b2 b3 = .incomplete) :
    240 ≤ b1 ∧ b1 ≤ 244 ∧ snd4ok b1 b2 = true ∧ 128 ≤ b3 ∧ b3 ≤ 191 := by
  unfold decodeOne3 at h
  split_ifs at h <;> try simp at h
  simp_all [lead4, isCont]
  all_goals omega

theorem ok4_inv {b1 b2 b3 b c k : Nat} (h : decodeOne4 b1 b2 b3 b = .ok c k) :
    (b1 < 128 ∧ c = b1 ∧ k = 1) ∨
    (194 ≤ b1 ∧ b1 ≤ 223 ∧ 128 ≤ b2 ∧ b2 ≤ 191 ∧
      c = (b1 - 192) * 64 + (b2 - 128) ∧ k = 2) ∨
    (224 ≤ b1 ∧ b1 ≤ 239 ∧ snd3ok b1 b2 = true ∧ 128 ≤ b3 ∧ b3 ≤ 191 ∧
      c = (b1 - 224) * 4096 + (b2 - 128) * 64 + (b3 - 128) ∧ k = 3) ∨
    (240 ≤ b1 ∧ b1 ≤ 244 ∧ snd4ok b1 b2 = true ∧ 128 ≤ b3 ∧ b3 ≤ 191 ∧
      128 ≤ b ∧ b ≤ 191 ∧
      c = (b1 - 240) * 262144 + (b2 - 128) * 4096 + (b3 - 128) * 64 +
        (b - 128) ∧ k = 4) := by
  unfold decodeOne4 at h
  split_ifs at h <;> try simp at h
  · exact Or.inl ⟨by assumption, h.1.symm, h.2.symm⟩
  · refine Or.inr (Or.inl ?_)
    simp_all [lead2, isCont]
    all_goals omega
  · refine Or.inr (Or.inr (Or.inl ?_))
    simp_all [lead3, isCont]
    all_goals omega
  · refine Or.inr (Or.inr (Or.inr ?_))
    simp_all [lead4, isCont]
    all_goals omega

theorem step_ok_encode {p : List Nat} {b c k : Nat} (hp : PendingOk p)
    (h : decodeOne (p ++ [b]) = .ok c k) : utf8EncodeChar c = p ++ [b] := by
  match p with
  | [] =>
    obtain ⟨h1, rfl, rfl⟩ := ok1_inv (h : decodeOne1 b = .ok c k)
    unfold utf8EncodeChar
    rw [if_pos h1]
    rfl
  | [b1] =>
    have hp1 : decodeOne1 b1 = .incomplete := by
      rcases hp with hp | hp
      · simp at hp
      · exact hp
    have hb1 := inc1_inv hp1
    rcases ok2_inv (h : decodeOne2 b1 b = .ok c k) with
      ⟨h1, _, _⟩ | ⟨h1, h2, h3, h4, rfl, rfl⟩
    · omega
    · unfold utf8EncodeChar
      have hc1 : ¬ ((b1 - 192) * 64 + (b - 128) < 128) := by omega
      have hc2 : (b1 - 192) * 64 + (b - 128) < 2048 := by omega
      rw [if_neg hc1, if_pos hc2]
      simp only [List.cons_append, List.nil_append, List.cons.injEq, and_true]
      omega
  | [b1, b2] =>
    have hp2 : decodeOne2 b1 b2 = .incomplete := by
      rcases hp with hp | hp
      · simp at hp
      · exact hp
    rcases inc2_inv hp2 with ⟨g1, g2, g3⟩ | ⟨g1, g2, g3⟩ <;>
      rcases ok3_inv (h : decodeOne3 b1 b2 b = .ok c k) with
        ⟨h1, _, _⟩ | ⟨h1, h2, h3, h4, rfl, rfl⟩ |
        ⟨h1, h2, h3, h4, h5, rfl, rfl⟩ <;> try omega
    · have hs := snd3ok_bounds g3
      unfold utf8EncodeChar
      have hc1 :
          ¬ ((b1 - 224) * 4096 + (b2 - 128) * 64 + (b - 128) < 128) := by
        omega
      have hc2 :
          ¬ ((b1 - 224) * 4096 + (b2 - 128) * 64 + (b - 128) < 2048) := by
        omega
      have hc3 : (b1 - 224) * 4096 + (b2 - 128) * 64 + (b - 128) < 65536 := by
        omega
      rw [if_neg hc1, if_neg hc2, if_pos hc3]
      simp only [List.cons_append, List.nil_append, List.cons.injEq, and_true]
      omega
  | [b1, b2, b3] =>
    have hp3 : decodeOne3 b1 b2 b3 = .incomplete := by
      rcases hp with hp | hp
      · simp at hp
      · exact hp
    obtain ⟨g1, g2, g3, g4, g5⟩ := inc3_inv hp3
    rcases ok4_inv (h : decodeOne4 b1 b2 b3 b = .ok c k) with
      ⟨h1, _, _⟩ | ⟨h1, h2, h3, h4, rfl, rfl⟩ |
      ⟨h1, h2, h3, h4, h5, rfl, rfl⟩ |
      ⟨h1, h2, h3, h4, h5, h6, h7, rfl, rfl⟩ <;> try omega
    have hs := snd4ok_bounds h3
    unfold utf8EncodeChar
    have hc1 :
        ¬ ((b1 - 240) * 262144 + (b2 - 128) * 4096 + (b3 - 128) * 64 +
          (b - 128) < 128) := by omega
    have hc2 :
        ¬ ((b1 - 240) * 262144 + (b2 - 128) * 4096 + (b3 - 128) * 64 +
          (b - 128) < 2048) := by omega
    have hc3 :
        ¬ ((b1 - 240) * 262144 + (b2 - 128) * 4096 + (b3 - 128) * 64 +
          (b - 128) < 65536) := by omega
    rw [if_neg hc1, if_neg hc2, if_neg hc3]
    simp only [List.cons_append, List.nil_append, List.cons.injEq, and_true]
    omega
  | b1 :: b2 :: b3 :: b4 :: rest =>
    have hp4 : decodeOne4 b1 b2 b3 b4 = .incomplete := by
      rcases hp with hp | hp
      · simp at hp
      · exact hp
    exact absurd hp4 (decodeOne4_ne_incomplete b1 b2 b3 b4)

/-- Streaming decode round-trip: re-encoding the emitted scalars and
appending the final buffer recovers exactly the bytes fed in. -/
theorem utf8Run_roundtrip :
    ∀ (x : List Nat) {p t pf : List Nat}, PendingOk p →
      utf8Run p x = some (t, pf) →
      utf8Encode t ++ pf = p ++ x ∧ PendingOk pf
  | [], p, t, pf, hp, h => by
    simp only [utf8Run] at h
    cases h
    exact ⟨by simp [utf8Encode], hp⟩
  | b :: rest, p, t, pf, hp, h => by
    simp only [utf8Run] at h
    rcases hs : utf8Step p b with _ | ⟨o, q⟩
    · rw [hs] at h; cases h
    · rw [hs] at h
      have hq := utf8Step_pendingOk hs
      cases o with
      | none =>
        have h2 : utf8Run q rest = some (t, pf) := h
        have hq2 : q = p ++ [b] := by
          unfold utf8Step at hs
          split at hs <;> cases hs
          rfl
        obtain ⟨ih1, ih2⟩ := utf8Run_roundtrip rest hq h2
        refine ⟨?_, ih2⟩
        rw [ih1, hq2]
        simp
      | some c =>
        have h2 :
            (match utf8Run q rest with
             | some (t, pf) => some (c :: t, pf)
             | none => none) = some (t, pf) := h
        rcases hr : utf8Run q rest with _ | ⟨t2, pf2⟩
        · rw [hr] at h2; cases h2
        · rw [hr] at h2
          cases h2
          have hcq : utf8EncodeChar c = p ++ [b] ∧ q = [] := by
            unfold utf8Step at hs
            rcases hd : decodeOne (p ++ [b]) with ⟨c2, k⟩ | _ | _ <;>
              rw [hd] at hs <;> cases hs
            exact ⟨step_ok_encode hp hd, rfl⟩
          obtain ⟨ih1, ih2⟩ := utf8Run_roundtrip rest hq hr
          refine ⟨?_, ih2⟩
          have he : utf8Encode (c :: t2) = utf8EncodeChar c ++ utf8Encode t2 := by
            simp [utf8Encode]
          rw [he, List.append_assoc, ih1, hcq.2, hcq.1]
          simp

/-- Streaming decode distributes over concatenation of the input. -/
theorem utf8Run_append :
    ∀ (x y p : List Nat),
      utf8Run p (x ++ y) =
        match utf8Run p x with
        | none => none
        | some (t, q) =>
          match utf8Run q y with
          | some (t2, pf) => some (t ++ t2, pf)
          | none => none
  | [], y, p => by
    simp only [List.nil_append, utf8Run]
    rcases hr : utf8Run p y with _ | ⟨t2, pf⟩ <;> simp
  | b :: rest, y, p => by
    simp only [List.cons_append, utf8Run]
    rcases hs : utf8Step p b with _ | ⟨o, q⟩
    · rfl
    · cases o with
      | none =>
        dsimp only
        exact utf8Run_append rest y q
      | some c =>
        dsimp only
        have hcomp : utf8Run q (rest.append y) =
            match utf8Run q rest with
            | none => none
            | some (t, q1) =>
              match utf8Run q1 y with
              | some (t2, pf) => some (t ++ t2, pf)
              | none => none := utf8Run_append rest y q
        rw [hcomp]
        rcases h1 : utf8Run q rest with _ | ⟨t1, q1⟩
        · rfl
        · dsimp only
          rcases h2 : utf8Run q1 y with _ | ⟨t2, pf⟩ <;> simp

/-! ## Stream-run lemmas -/

theorem runChunks_append (st : WState) :
    ∀ (xs ys : List (List Nat)),
      runChunks st (xs ++ ys) =
        ((runChunks (runChunks st xs).1 ys).1,
          (runChunks st xs).2 ++ (runChunks (runChunks st xs).1 ys).2) := by
  intro xs
  induction xs generalizing st with
  | nil => intro ys; simp [runChunks]
  | cons v vs ih =>
    intro ys
    simp only [List.cons_append, runChunks]
    have ih2 : runChunks (stepChunk st v).1 (vs.append ys) = _ :=
      ih (stepChunk st v).1 ys
    rw [ih2]
    simp [List.append_assoc]

/-- In passthrough mode every remaining chunk is forwarded raw and the
state never changes. -/
theorem runChunks_passthrough (st : WState)
    (hst : st.unsupportedCharset = true) :
    ∀ vs : List (List Nat), runChunks st vs = (st, vs.flatten) := by
  intro vs
  induction vs with
  | nil => simp [runChunks]
  | cons v vs ih =>
    have hstep : stepChunk st v = (st, v) := by
      unfold stepChunk
      rw [if_pos hst]
    simp only [runChunks, hstep, ih, List.flatten_cons]

/-- A chunk that fails to decode is forwarded raw and switches the
stream to passthrough. -/
theorem stepChunk_decodeFail {st : WState} {v : List Nat}
    (hst : st.unsupportedCharset = false)
    (hfail : utf8Run st.pending v = none) :
    stepChunk st v = (⟨st.firstChunk, true, st.pending⟩, v) := by
  unfold stepChunk
  rw [if_neg (by simp [hst]), hfail]

/-- Along a run that never enters passthrough, the output is the
per-chunk re-encoded scan/splice of the decoded texts, the
`unsupportedCharset` flag stays off, and the decoder buffer is the one
computed by `scanTextsFrom`. -/
theorem scan_run :
    ∀ (vs : List (List Nat)) (fc : Bool) (pending : List Nat)
      (ts : List (List Nat)) (pf : List Nat),
      scanTextsFrom fc pending vs = some (ts, pf) →
      ∃ fc2, runChunks ⟨fc, false, pending⟩ vs =
        (⟨fc2, false, pf⟩,
          (ts.map (fun t => utf8Encode (injectSnippet t))).flatten) := by
  intro vs
  induction vs with
  | nil =>
    intro fc pending ts pf h
    simp only [scanTextsFrom] at h
    cases h
    exact ⟨fc, by simp [runChunks]⟩
  | cons v vs ih =>
    intro fc pending ts pf h
    simp only [scanTextsFrom] at h
    rcases hd : utf8Run pending v with _ | ⟨t, p⟩ <;> rw [hd] at h
    · cases h
    · dsimp only at h
      rcases hsniff : fc && chunkContainsInvalidCharset t with _ | _ <;>
        rw [hsniff] at h
      · rcases hrest : scanTextsFrom false p vs with _ | ⟨ts2, pf2⟩ <;>
          rw [hrest] at h
        · simp at h
        · simp only [Option.some.injEq] at h
          cases h
          obtain ⟨fc2, ih2⟩ := ih false p ts2 pf hrest
          have hstep : stepChunk ⟨fc, false, pending⟩ v =
              (⟨false, false, p⟩, utf8Encode (injectSnippet t)) := by
            unfold stepChunk
            simp only [if_neg (by simp : ¬ (false = true))]
            rw [hd]
            dsimp only
            rw [hsniff]
            simp
          refine ⟨fc2, ?_⟩
          simp only [runChunks, hstep, ih2, List.map_cons, List.flatten_cons]
      · simp at h

/-- Along a run that never enters passthrough, the per-chunk decoded
texts concatenate to the streaming decode of the whole byte stream. -/
theorem scan_decode :
    ∀ (vs : List (List Nat)) (fc : Bool) (pending : List Nat)
      (ts : List (List Nat)) (pf : List Nat),
      scanTextsFrom fc pending vs = some (ts, pf) →
      utf8Run pending vs.flatten = some (ts.flatten, pf) := by
  intro vs
  induction vs with
  | nil =>
    intro fc pending ts pf h
    simp only [scanTextsFrom] at h
    cases h
    simp [utf8Run]
  | cons v vs ih =>
    intro fc pending ts pf h
    simp only [scanTextsFrom] at h
    rcases hd : utf8Run pending v with _ | ⟨t, p⟩ <;> rw [hd] at h
    · cases h
    · dsimp only at h
      rcases hsniff : fc && chunkContainsInvalidCharset t with _ | _ <;>
        rw [hsniff] at h
      · rcases hrest : scanTextsFrom false p vs with _ | ⟨ts2, pf2⟩ <;>
          rw [hrest] at h
        · simp at h
        · simp only [Option.some.injEq] at h
          cases h
          have ih2 := ih false p ts2 pf hrest
          have hcomp : utf8Run pending (v ++ vs.flatten) =
              match utf8Run pending v with
              | none => none
              | some (t, q) =>
                match utf8Run q vs.flatten with
                | some (t2, pf) => some (t ++ t2, pf)
                | none => none := utf8Run_append v vs.flatten pending
          simp only [List.flatten_cons, hcomp, hd, ih2]
      · simp at h

/-! ## Substring occurrences -/

theorem isPrefixOfIff {l₁ l₂ : List Nat} :
    l₁.isPrefixOf l₂ = true ↔ l₁ <+: l₂ := List.isPrefixOf_iff_prefix

theorem prefixIffTake {l₁ l₂ : List Nat} :
    l₁ <+: l₂ ↔ l₁ = l₂.take l₁.length := List.prefix_iff_eq_take

theorem prefixTake (n : Nat) (l : List Nat) : l.take n <+: l :=
  List.take_prefix n l

theorem suffixDrop (n : Nat) (l : List Nat) : l.drop n <:+ l :=
  List.drop_suffix n l

/-- A prefix of a suffix is an infix. -/
theorem infixOfPrefixSuffix {n s l : List Nat} (h1 : n <+: s)
    (h2 : s <:+ l) : n <:+: l := by
  obtain ⟨r, hr⟩ := h1
  obtain ⟨u, hu⟩ := h2
  exact ⟨u, r, by rw [← hu, ← hr, List.append_assoc]⟩

/-- Occurrence at a position gives an infix. -/
theorem infixOfDrop {n l : List Nat} {p : Nat} (h : n <+: l.drop p) :
    n <:+: l :=
  infixOfPrefixSuffix h (suffixDrop p l)

/-- An infix occurs at some position. -/
theorem dropOfInfix {n l : List Nat} (h : n <:+: l) :
    ∃ p, n <+: l.drop p := by
  obtain ⟨s, t, rfl⟩ := h
  refine ⟨s.length, ?_⟩
  rw [List.append_assoc, List.drop_left]
  exact List.prefix_append n t

theorem countSubstr_eq_zero_iff {X n : List Nat} (hn : n ≠ []) :
    countSubstr X n = 0 ↔ ¬ n <:+: X := by
  induction X with
  | nil =>
    have h0 : countSubstr [] n = 0 := by
      simp only [countSubstr]
      rw [if_neg (by simp only [List.isEmpty_iff]; exact hn)]
    rw [h0]
    constructor
    · intro _ hinf
      obtain ⟨s, t, hst⟩ := hinf
      have hl := congrArg List.length hst
      simp only [List.length_append, List.length_nil] at hl
      exact hn (List.eq_nil_of_length_eq_zero (by omega))
    · intro _
      rfl
  | cons h t ih =>
    rw [List.infix_cons_iff]
    constructor
    · intro he
      simp only [countSubstr] at he
      by_cases hb : n.isPrefixOf (h :: t) = true
      · rw [if_pos hb] at he; omega
      · rw [if_neg hb] at he
        intro hor
        rcases hor with hp | hinf
        · exact hb (isPrefixOfIff.mpr hp)
        · exact (ih.mp (by omega)) hinf
    · intro hne
      simp only [countSubstr]
      have hb : ¬ (n.isPrefixOf (h :: t) = true) :=
        fun hb => hne (Or.inl (isPrefixOfIff.mp hb))
      rw [if_neg hb]
      have := ih.mpr (fun hinf => hne (Or.inr hinf))
      omega

theorem countSubstr_append_ge {n : List Nat} (hn : n ≠ []) :
    ∀ X Y : List Nat,
      countSubstr X n + countSubstr Y n ≤ countSubstr (X ++ Y) n := by
  intro X
  induction X with
  | nil =>
    intro Y
    have h0 : countSubstr [] n = 0 := by
      simp only [countSubstr]
      rw [if_neg (by simp only [List.isEmpty_iff]; exact hn)]
    simp [h0]
  | cons h t ih =>
    intro Y
    simp only [List.cons_append, countSubstr]
    rw [show (t.append Y) = t ++ Y from rfl]
    have hYle := ih Y
    by_cases hb : n.isPrefixOf (h :: t) = true
    · have hb2 : n.isPrefixOf (h :: (t ++ Y)) = true :=
        isPrefixOfIff.mpr
          ((isPrefixOfIff.mp hb).trans (List.prefix_append (h :: t) Y))
      rw [if_pos hb, if_pos hb2]
      omega
    · rw [if_neg hb]
      by_cases hb2 : n.isPrefixOf (h :: (t ++ Y)) = true
      · rw [if_pos hb2]; omega
      · rw [if_neg hb2]; omega

theorem countSubstr_self_pos {n : List Nat} (hn : n ≠ []) (B : List Nat) :
    1 ≤ countSubstr (n ++ B) n := by
  match n, hn with
  | h :: t, _ =>
    show 1 ≤ countSubstr (h :: (t ++ B)) (h :: t)
    simp only [countSubstr]
    rw [if_pos (show (h :: t).isPrefixOf (h :: (t ++ B)) = true from
      isPrefixOfIff.mpr (List.prefix_append (h :: t) B))]
    omega

/-- Position characterization of `countSubstr`: it counts the start
positions at which `needle` occurs. -/
theorem countSubstr_eq_countP (n : List Nat) :
    ∀ X : List Nat,
      countSubstr X n =
        (List.range (X.length + 1)).countP
          (fun p => n.isPrefixOf (X.drop p)) := by
  intro X
  induction X with
  | nil =>
    cases n with
    | nil => decide
    | cons c n2 =>
      rw [show List.range (List.length ([] : List Nat) + 1) = [0] from rfl]
      simp [countSubstr, List.countP_cons, List.isPrefixOf]
  | cons h t ih =>
    simp only [countSubstr, List.length_cons]
    rw [List.range_succ_eq_map, List.countP_cons]
    simp only [List.countP_map, List.drop_zero, Function.comp_def,
      List.drop_succ_cons]
    rw [← ih]
    omega

theorem borderFree_spec {n : List Nat} (hbf : borderFree n = true) :
    ∀ k, 0 < k → k < n.length → ¬ (n.drop k <+: n) := by
  intro k hk1 hk2 hpre
  unfold borderFree at hbf
  rw [List.all_eq_true] at hbf
  have := hbf k (List.mem_range.mpr hk2)
  rw [Bool.or_eq_true] at this
  rcases this with h1 | h1
  · simp only [decide_eq_true_eq] at h1; omega
  · rw [Bool.not_eq_eq_eq_not, Bool.not_true] at h1
    rw [isPrefixOfIff.mpr hpre] at h1
    cases h1

/-- If `n` occurs at the head of `X ++ Y` and `X` is no longer than
`n`, then `X` is the corresponding prefix of `n` and the rest of `n`
occurs at the head of `Y`. -/
theorem prefix_split {n X Y : List Nat} (h : n <+: X ++ Y)
    (hlen : X.length ≤ n.length) :
    X = n.take X.length ∧ n.drop X.length <+: Y := by
  obtain ⟨r, hr⟩ := h
  constructor
  · have htake := congrArg (List.take X.length) hr
    rw [List.take_append_of_le_length hlen, List.take_left] at htake
    exact htake.symm
  · have hdrop := congrArg (List.drop X.length) hr
    rw [List.drop_append_of_le_length hlen, List.drop_left] at hdrop
    exact ⟨r, hdrop⟩

/-- If `n` occurs at the head of `X ++ Y` and fits inside `X`, it
occurs at the head of `X`. -/
theorem prefix_of_append_of_le {n X Y : List Nat} (h : n <+: X ++ Y)
    (hlen : n.length ≤ X.length) : n <+: X := by
  have h1 : n = (X ++ Y).take n.length := prefixIffTake.mp h
  rw [List.take_append_of_le_length hlen] at h1
  rw [h1]
  exact prefixTake _ _

/-- With a border-free needle that occurs in neither `A` nor `B`, the
only start position of `n` in `A ++ n ++ B` is `A.length`. -/
theorem occurrence_unique {n A B : List Nat} (_hn : n ≠ [])
    (hbf : borderFree n = true) (hA : ¬ n <:+: A) (hB : ¬ n <:+: B) :
    ∀ p, n <+: (A ++ n ++ B).drop p → p = A.length := by
  intro p hp
  rcases Nat.lt_trichotomy p A.length with hlt | heq | hgt
  · exfalso
    rw [List.append_assoc, List.drop_append_of_le_length (by omega)] at hp
    by_cases hfit : n.length ≤ A.length - p
    · refine hA (infixOfDrop (prefix_of_append_of_le hp ?_))
      rw [List.length_drop]
      omega
    · obtain ⟨h1, h2⟩ := prefix_split hp (by rw [List.length_drop]; omega)
      have h3 : n.drop ((A.drop p).length) <+: n := by
        refine prefix_of_append_of_le h2 ?_
        rw [List.length_drop]
        omega
      rw [List.length_drop] at h3
      exact borderFree_spec hbf (A.length - p) (by omega) (by omega) h3
  · exact heq
  · exfalso
    rw [List.append_assoc] at hp
    rw [show p = A.length + (p - A.length) from by omega,
      List.drop_append] at hp
    by_cases hmid : p - A.length < n.length
    · rw [List.drop_append_of_le_length (by omega)] at hp
      obtain ⟨h1, _⟩ := prefix_split hp (by rw [List.length_drop]; omega)
      have h3 : n.drop (p - A.length) <+: n := by
        rw [h1]
        exact prefixTake _ _
      exact borderFree_spec hbf (p - A.length) (by omega) hmid h3
    · rw [show p - A.length = n.length + (p - A.length - n.length) from by
        omega, List.drop_append] at hp
      exact hB (infixOfDrop hp)

/-- Inserting a border-free needle between two needle-free contexts
yields exactly one occurrence. -/
theorem countSubstr_insert {n A B : List Nat} (hn : n ≠ [])
    (hbf : borderFree n = true) (hA : ¬ n <:+: A) (hB : ¬ n <:+: B) :
    countSubstr (A ++ n ++ B) n = 1 := by
  rw [countSubstr_eq_countP]
  have hcongr := List.countP_congr
    (l := List.range ((A ++ n ++ B).length + 1))
    (p := fun p => n.isPrefixOf ((A ++ n ++ B).drop p))
    (q := fun p => p == A.length)
    (by
      intro x _
      simp only [beq_iff_eq]
      constructor
      · intro hx
        exact occurrence_unique hn hbf hA hB x (isPrefixOfIff.mp hx)
      · intro hx
        subst hx
        refine isPrefixOfIff.mpr ?_
        rw [List.append_assoc, List.drop_left]
        exact List.prefix_append n B)
  rw [hcongr]
  have hmem : A.length ∈ List.range ((A ++ n ++ B).length + 1) := by
    rw [List.mem_range]
    simp only [List.length_append]
    omega
  exact List.count_eq_one_of_mem
    (List.nodup_range ((A ++ n ++ B).length + 1)) hmem

/-! ## First-occurrence index -/

theorem listIndexOf_none_iff {n : List Nat} (hn : n ≠ []) :
    ∀ X : List Nat, listIndexOf n X = none ↔ ¬ n <:+: X := by
  intro X
  induction X with
  | nil =>
    simp only [listIndexOf]
    rw [if_neg (by simp only [List.isEmpty_iff]; exact hn)]
    simp only [true_iff]
    intro hinf
    obtain ⟨s, t, hst⟩ := hinf
    have hl := congrArg List.length hst
    simp only [List.length_append, List.length_nil] at hl
    exact hn (List.eq_nil_of_length_eq_zero (by omega))
  | cons h t ih =>
    simp only [listIndexOf]
    rw [List.infix_cons_iff]
    by_cases hb : n.isPrefixOf (h :: t) = true
    · rw [if_pos hb]
      simp only [reduceCtorEq, false_iff, not_not]
      exact Or.inl (isPrefixOfIff.mp hb)
    · rw [if_neg hb]
      rw [Option.map_eq_none']
      rw [ih]
      constructor
      · intro hni hor
        rcases hor with hp | hinf
        · exact hb (isPrefixOfIff.mpr hp)
        · exact hni hinf
      · intro hne hinf
        exact hne (Or.inr hinf)

theorem listIndexOf_first {n : List Nat} :
    ∀ {X : List Nat} {i : Nat}, listIndexOf n X = some i →
      n <+: X.drop i ∧ ∀ j, j < i → ¬ n <+: X.drop j
  | [], i, h => by
    simp only [listIndexOf] at h
    by_cases hb : n.isEmpty = true
    · rw [if_pos hb] at h
      cases h
      simp only [List.drop_nil]
      rw [List.isEmpty_iff] at hb
      subst hb
      exact ⟨List.nil_prefix, by omega⟩
    · rw [if_neg hb] at h
      cases h
  | h :: t, i, hx => by
    simp only [listIndexOf] at hx
    by_cases hb : n.isPrefixOf (h :: t) = true
    · rw [if_pos hb] at hx
      cases hx
      exact ⟨isPrefixOfIff.mp hb, by omega⟩
    · rw [if_neg hb] at hx
      rcases ho : listIndexOf n t with _ | i2
      · rw [ho] at hx; cases hx
      · rw [ho] at hx
        have hx2 : i2 + 1 = i := by simpa using hx
        subst hx2
        obtain ⟨ih1, ih2⟩ := listIndexOf_first ho
        refine ⟨by simpa [List.drop_succ_cons] using ih1, ?_⟩
        intro j hj
        match j with
        | 0 =>
          simp only [List.drop_zero]
          exact fun hp => hb (isPrefixOfIff.mpr hp)
        | j2 + 1 =>
          simp only [List.drop_succ_cons]
          exact ih2 j2 (by omega)

theorem listIndexOf_some_of {n : List Nat} (hn : n ≠ []) :
    ∀ (X : List Nat) (i : Nat), n <+: X.drop i →
      (∀ j, j < i → ¬ n <+: X.drop j) → listIndexOf n X = some i
  | [], i, h1, h2 => by
    exfalso
    rw [List.drop_nil] at h1
    obtain ⟨r, hr⟩ := h1
    exact hn (by
      have hl := congrArg List.length hr
      simp only [List.length_append, List.length_nil] at hl
      exact List.eq_nil_of_length_eq_zero (by omega))
  | h :: t, 0, h1, h2 => by
    simp only [List.drop_zero] at h1
    simp only [listIndexOf]
    rw [if_pos (isPrefixOfIff.mpr h1)]
  | h :: t, i + 1, h1, h2 => by
    simp only [listIndexOf]
    rw [if_neg (fun hb => h2 0 (by omega)
      (by simpa [List.drop_zero] using isPrefixOfIff.mp hb))]
    rw [listIndexOf_some_of hn t i
      (by simpa [List.drop_succ_cons] using h1)
      (fun j hj => by
        have := h2 (j + 1) (by omega)
        simpa [List.drop_succ_cons] using this)]
    rfl

/-- The first index of a border-free needle inserted between two
needle-free contexts is the length of the left context. -/
theorem listIndexOf_insert {n A B : List Nat} (hn : n ≠ [])
    (hbf : borderFree n = true) (hA : ¬ n <:+: A) (hB : ¬ n <:+: B) :
    listIndexOf n (A ++ n ++ B) = some A.length := by
  refine listIndexOf_some_of hn _ _ ?_ ?_
  · rw [List.append_assoc, List.drop_left]
    exact List.prefix_append n B
  · intro j hj hpre
    exact absurd (occurrence_unique hn hbf hA hB j hpre) (by omega)

/-- No occurrence strictly before the first index. -/
theorem listIndexOf_take_none {n X : List Nat} {i : Nat} (hn : n ≠ [])
    (h : listIndexOf n X = some i) : listIndexOf n (X.take i) = none := by
  obtain ⟨h1, h2⟩ := listIndexOf_first h
  rw [listIndexOf_none_iff hn]
  intro hinf
  obtain ⟨p, hp⟩ := dropOfInfix hinf
  rw [List.drop_take] at hp
  rw [List.prefix_take_iff] at hp
  have hlen : 1 ≤ n.length := by
    match n, hn with
    | c :: n2, _ => simp
  exact h2 p (by omega) hp.1

/-! ## The scan/splice step on texts with a unique marker -/

theorem headMarker_ne_nil : headMarker ≠ [] := by decide

theorem headMarker_borderFree : borderFree headMarker = true := by decide

theorem injectSnippet_of_no_marker {t : List Nat}
    (h : listIndexOf headMarker t = none) : injectSnippet t = t := by
  unfold injectSnippet
  rw [h]

theorem injectSnippet_insert {A B : List Nat} (hA : ¬ headMarker <:+: A)
    (hB : ¬ headMarker <:+: B) :
    injectSnippet (A ++ headMarker ++ B) =
      A ++ TAG_MANAGER ++ headMarker ++ B := by
  have hidx : listIndexOf headMarker (A ++ headMarker ++ B) =
      some A.length :=
    listIndexOf_insert headMarker_ne_nil headMarker_borderFree hA hB
  unfold injectSnippet
  rw [hidx]
  dsimp only
  simp only [List.append_assoc, List.take_left, List.drop_left]

theorem infix_of_mem_flatten {x : List Nat} :
    ∀ {l : List (List Nat)}, x ∈ l → x <:+: l.flatten := by
  intro l
  induction l with
  | nil => intro h; cases h
  | cons a l2 ih =>
    intro h
    rw [List.flatten_cons]
    rcases List.mem_cons.mp h with rfl | h2
    · exact ⟨[], l2.flatten, by simp⟩
    · obtain ⟨s, t, hst⟩ := ih h2
      exact ⟨a ++ s, t, by rw [← hst]; simp [List.append_assoc]⟩

theorem utf8Encode_flatten :
    ∀ l : List (List Nat),
      utf8Encode l.flatten = (l.map utf8Encode).flatten := by
  intro l
  induction l with
  | nil => rfl
  | cons a l2 ih =>
    simp only [List.flatten_cons, List.map_cons, utf8Encode_append, ih]

/-- The heart of claims C2 and C3: a run that stays in scanning mode,
whose decoded texts contain the marker exactly once overall and wholly
inside one chunk, outputs the re-encoded global text with the snippet
spliced at the (unique, hence first) marker occurrence. -/
theorem scan_single_marker {chunks ts1 ts2 : List (List Nat)}
    {ts : List (List Nat)} {A B pf : List Nat}
    (hscan : scanTextsFrom true [] chunks = some (ts, pf))
    (hts : ts = ts1 ++ (A ++ headMarker ++ B) :: ts2)
    (hone : countSubstr ts.flatten headMarker = 1) :
    ts.flatten =
      (ts1.flatten ++ A) ++ headMarker ++ (B ++ ts2.flatten) ∧
    listIndexOf headMarker ts.flatten = some (ts1.flatten ++ A).length ∧
    modifyHtmlStream chunks =
      utf8Encode
        ((ts1.flatten ++ A) ++ TAG_MANAGER ++ headMarker ++
          (B ++ ts2.flatten)) := by
  have hmne := headMarker_ne_nil
  have hflat : ts.flatten =
      (ts1.flatten ++ A) ++ headMarker ++ (B ++ ts2.flatten) := by
    rw [hts]
    simp [List.flatten_append, List.flatten_cons, List.append_assoc]
  -- the two contexts around the unique occurrence are marker-free
  have hP : countSubstr (ts1.flatten ++ A) headMarker = 0 ∧
      countSubstr (B ++ ts2.flatten) headMarker = 0 := by
    rw [hflat] at hone
    have h1 := countSubstr_append_ge hmne (ts1.flatten ++ A)
      (headMarker ++ (B ++ ts2.flatten))
    have h2 := countSubstr_append_ge hmne headMarker (B ++ ts2.flatten)
    have h3 := countSubstr_self_pos hmne ([] : List Nat)
    have h4 : 1 ≤ countSubstr headMarker headMarker := by
      have := countSubstr_self_pos hmne ([] : List Nat)
      simpa using this
    rw [List.append_assoc] at hone
    omega
  have hPn : ¬ headMarker <:+: (ts1.flatten ++ A) :=
    (countSubstr_eq_zero_iff hmne).mp hP.1
  have hSn : ¬ headMarker <:+: (B ++ ts2.flatten) :=
    (countSubstr_eq_zero_iff hmne).mp hP.2
  have hAn : ¬ headMarker <:+: A := fun hinf =>
    hPn (hinf.trans ⟨ts1.flatten, [], by simp⟩)
  have hBn : ¬ headMarker <:+: B := fun hinf =>
    hSn (hinf.trans ⟨[], ts2.flatten, by simp⟩)
  have hts1 : ∀ t ∈ ts1, listIndexOf headMarker t = none := by
    intro t ht
    rw [listIndexOf_none_iff hmne]
    intro hinf
    exact hPn (((hinf.trans (infix_of_mem_flatten ht)).trans)
      ⟨[], A, by simp⟩)
  have hts2 : ∀ t ∈ ts2, listIndexOf headMarker t = none := by
    intro t ht
    rw [listIndexOf_none_iff hmne]
    intro hinf
    exact hSn (((hinf.trans (infix_of_mem_flatten ht)).trans)
      ⟨B, [], by simp⟩)
  refine ⟨hflat, ?_, ?_⟩
  · rw [hflat]
    exact listIndexOf_insert hmne headMarker_borderFree hPn hSn
  · obtain ⟨fc2, hrun⟩ := scan_run chunks true [] ts pf hscan
    unfold modifyHtmlStream initWState
    rw [hrun]
    rw [hts]
    simp only [List.map_append, List.map_cons, List.flatten_append,
      List.flatten_cons]
    have e1 : ts1.map (fun t => utf8Encode (injectSnippet t)) =
        ts1.map utf8Encode := by
      apply List.map_congr_left
      intro t ht
      rw [injectSnippet_of_no_marker (hts1 t ht)]
    have e2 : ts2.map (fun t => utf8Encode (injectSnippet t)) =
        ts2.map utf8Encode := by
      apply List.map_congr_left
      intro t ht
      rw [injectSnippet_of_no_marker (hts2 t ht)]
    rw [e1, e2, injectSnippet_insert hAn hBn, ← utf8Encode_flatten,
      ← utf8Encode_flatten]
    simp only [← utf8Encode_append]
    congr 1
    simp [List.append_assoc]

/-! ## Passthrough switches -/

/-- A decode failure forwards the raw chunk and the whole remainder of
the stream raw. -/
theorem runChunks_decode_fail (st : WState) (v : List Nat)
    (post : List (List Nat)) (hscan : st.unsupportedCharset = false)
    (hfail : utf8Run st.pending v = none) :
    runChunks st (v :: post) =
      (⟨st.firstChunk, true, st.pending⟩, v ++ post.flatten) := by
  simp only [runChunks, stepChunk_decodeFail hscan hfail]
  rw [runChunks_passthrough _ rfl post]

/-- An unsupported meta charset in the first chunk forwards the raw
chunk and the whole remainder of the stream raw. -/
theorem runChunks_sniff_invalid (v : List Nat) (post : List (List Nat))
    {t p : List Nat} (hdec : utf8Run [] v = some (t, p))
    (hsniff : chunkContainsInvalidCharset t = true) :
    runChunks initWState (v :: post) =
      (⟨false, true, p⟩, v ++ post.flatten) := by
  have hstep : stepChunk initWState v = (⟨false, true, p⟩, v) := by
    unfold stepChunk initWState
    simp only [if_neg (by simp : ¬ (false = true))]
    rw [hdec]
    dsimp only
    rw [show (true && chunkContainsInvalidCharset t) = true by
      simp [hsniff]]
    rfl
  simp only [runChunks, hstep]
  rw [runChunks_passthrough _ rfl post]

/-! ## Agreement of the exception-oracle model with the plain model -/

theorem stepChunkExc_none (st : WState) (v : List Nat) :
    stepChunkExc st v none = stepChunk st v := by
  obtain ⟨fc, uc, pending⟩ := st
  cases uc
  · unfold stepChunkExc stepChunk
    simp only [if_neg (by simp : ¬ (false = true))]
    rcases hd : utf8Run pending v with _ | ⟨t, p⟩
    · rfl
    · dsimp only
      cases fc
      · simp
      · by_cases hs : chunkContainsInvalidCharset t = true
        · simp [hs]
        · simp only [Bool.not_eq_true] at hs
          simp [hs]
  · unfold stepChunkExc stepChunk
    simp

theorem runChunksExc_none (st : WState) :
    ∀ vs : List (List Nat),
      runChunksExc st vs (List.replicate vs.length none) = runChunks st vs := by
  intro vs
  induction vs generalizing st with
  | nil => rfl
  | cons v vs ih =>
    simp only [runChunksExc, runChunks, List.length_cons,
      List.replicate_succ, List.headD_cons, List.tail_cons,
      stepChunkExc_none, ih]

/-! ## The sink trace always ends in exactly one close -/

theorem streamOpsLoop_close (errs : IoErrs) :
    ∀ (vs : List (List Nat)) (st : WState) (r w : Nat),
      ∃ ops, streamOpsLoop errs st r w vs = ops ++ [SinkOp.close] ∧
        SinkOp.close ∉ ops := by
  intro vs
  induction vs with
  | nil =>
    intro st r w
    exact ⟨[], rfl, by simp⟩
  | cons v vs ih =>
    intro st r w
    unfold streamOpsLoop
    by_cases hr : errs.readErr r = true
    · rw [if_pos hr]
      exact ⟨[], rfl, by simp⟩
    · rw [if_neg hr]
      by_cases hu : st.unsupportedCharset = true
      · rw [if_pos hu]
        by_cases hw : errs.writeErr w = true
        · rw [if_pos hw]
          exact ⟨[SinkOp.write v], rfl, by simp⟩
        · rw [if_neg hw]
          obtain ⟨ops, hops, hnot⟩ := ih st (r + 1) (w + 1)
          exact ⟨SinkOp.write v :: ops, by rw [hops, List.cons_append], by simp [hnot]⟩
      · rw [if_neg hu]
        rcases hd : utf8Run st.pending v with _ | ⟨t, p⟩
        · dsimp only
          by_cases hw : errs.writeErr w = true
          · rw [if_pos hw]
            exact ⟨[SinkOp.write v], rfl, by simp⟩
          · rw [if_neg hw]
            obtain ⟨ops, hops, hnot⟩ :=
              ih ⟨st.firstChunk, true, st.pending⟩ (r + 1) (w + 1)
            exact ⟨SinkOp.write v :: ops, by rw [hops, List.cons_append], by simp [hnot]⟩
        · dsimp only
          by_cases hs : (st.firstChunk && chunkContainsInvalidCharset t) = true
          · rw [if_pos hs]
            obtain ⟨ops, hops, hnot⟩ := ih ⟨false, true, p⟩ (r + 1) (w + 1)
            exact ⟨SinkOp.write v :: ops, by rw [hops, List.cons_append], by simp [hnot]⟩
          · rw [if_neg hs]
            by_cases hc : (injectSnippet t).isEmpty = true
            · rw [if_pos hc]
              exact ih ⟨false, st.unsupportedCharset, p⟩ (r + 1) w
            · rw [if_neg hc]
              by_cases hw : errs.writeErr w = true
              · rw [if_pos hw]
                exact ⟨[SinkOp.write (utf8Encode (injectSnippet t))], rfl,
                  by simp⟩
              · rw [if_neg hw]
                obtain ⟨ops, hops, hnot⟩ :=
                  ih ⟨false, st.unsupportedCharset, p⟩ (r + 1) (w + 1)
                exact ⟨SinkOp.write (utf8Encode (injectSnippet t)) :: ops,
                  by rw [hops, List.cons_append], by simp [hnot]⟩

/-! ## The claims -/

theorem tagManager_ne_nil : TAG_MANAGER ≠ [] := by decide

theorem tagManager_borderFree : borderFree TAG_MANAGER = true := by decide

/-- C1, counterexample: a response delivered as two chunks, each
containing one `</head>`, receives the Snippet twice — the worker has
no once-per-response latch, so "injected at most once per response, for
any sequence of chunks and any number of marker occurrences" is false.
The input contains no copy of the Snippet; the output contains two. -/
theorem c1_counterexample :
    countSubstr (List.flatten [str "</head>", str "</head>"])
      TAG_MANAGER = 0 ∧
    countSubstr (modifyHtmlStream [str "</head>", str "</head>"])
      TAG_MANAGER = 2 :=
  ⟨by decide, by decide⟩

/-- C1 (amended): along a run that never enters passthrough, the output
is the concatenation of the per-chunk scan/splice results, so the
Snippet is injected at most once per scanned chunk — immediately before
the first `</head>` occurrence of that chunk's decoded text — and if no
scanned chunk's decoded text contains the marker, no Snippet is
injected anywhere in the stream.  (Injection is thus per chunk, not at
most once per response: each scanned chunk containing the marker is
injected, as the counterexample shows.) -/
theorem c1_amended (chunks ts : List (List Nat)) (pf : List Nat)
    (hscan : scanTextsFrom true [] chunks = some (ts, pf)) :
    modifyHtmlStream chunks =
      (ts.map (fun t => utf8Encode (injectSnippet t))).flatten ∧
    ((∀ t ∈ ts, listIndexOf headMarker t = none) →
      modifyHtmlStream chunks = utf8Encode ts.flatten) ∧
    (∀ (t : List Nat) (i : Nat), listIndexOf headMarker t = some i →
      injectSnippet t = t.take i ++ TAG_MANAGER ++ t.drop i ∧
      listIndexOf headMarker (t.take i) = none) := by
  obtain ⟨fc2, hrun⟩ := scan_run chunks true [] ts pf hscan
  have hout : modifyHtmlStream chunks =
      (ts.map (fun t => utf8Encode (injectSnippet t))).flatten := by
    unfold modifyHtmlStream initWState
    rw [hrun]
  refine ⟨hout, ?_, ?_⟩
  · intro hnone
    rw [hout]
    have hmap : ts.map (fun t => utf8Encode (injectSnippet t)) =
        ts.map utf8Encode := by
      apply List.map_congr_left
      intro t ht
      rw [injectSnippet_of_no_marker (hnone t ht)]
    rw [hmap, ← utf8Encode_flatten]
  · intro t i hidx
    refine ⟨?_, listIndexOf_take_none headMarker_ne_nil hidx⟩
    unfold injectSnippet
    rw [hidx]

/-- C1 witness: the amended statement evaluated on a concrete
single-chunk stream containing one marker. -/
theorem c1_witness :
    modifyHtmlStream [str "<head></head><p>"] =
      (([str "<head></head><p>"].map
        (fun t => utf8Encode (injectSnippet t))).flatten) ∧
    ((∀ t ∈ [str "<head></head><p>"], listIndexOf headMarker t = none) →
      modifyHtmlStream [str "<head></head><p>"] =
        utf8Encode ([str "<head></head><p>"] : List (List Nat)).flatten) ∧
    (∀ (t : List Nat) (i : Nat), listIndexOf headMarker t = some i →
      injectSnippet t = t.take i ++ TAG_MANAGER ++ t.drop i ∧
      listIndexOf headMarker (t.take i) = none) :=
  c1_amended [str "<head></head><p>"] [str "<head></head><p>"] []
    (by decide)

/-- C4: if a chunk's bytes fail the strict decode, that chunk's
original raw bytes and all subsequent chunks' bytes are forwarded
unchanged — the output is whatever was written for the earlier
(possibly rewritten) chunks followed byte-for-byte by the input from
the failing chunk to stream end. -/
theorem c4_decode_failure (pre : List (List Nat)) (v : List Nat)
    (post : List (List Nat))
    (hscan : (runChunks initWState pre).1.unsupportedCharset = false)
    (hfail : utf8Run (runChunks initWState pre).1.pending v = none) :
    modifyHtmlStream (pre ++ v :: post) =
      (runChunks initWState pre).2 ++ (v ++ post.flatten) := by
  unfold modifyHtmlStream
  rw [runChunks_append]
  rw [runChunks_decode_fail (runChunks initWState pre).1 v post hscan hfail]

/-- C4 witness: an invalid byte 0xFF after a rewritable first chunk;
the remainder is forwarded raw. -/
theorem c4_witness :
    modifyHtmlStream ([str "<html>"] ++ [0xFF] :: [str "tail"]) =
      (runChunks initWState [str "<html>"]).2 ++
        ([0xFF] ++ List.flatten [str "tail"]) :=
  c4_decode_failure [str "<html>"] [0xFF] [str "tail"]
    (by decide) (by decide)

/-- C6: a response whose status is not 200, or whose content-type does
not contain `text/html`, is forwarded without entering the rewriting
path: the output bytes equal the input bytes. -/
theorem c6_non_html_passthrough (status : Nat)
    (contentType : Option (List Nat)) (chunks : List (List Nat))
    (h : status ≠ 200 ∨
      (∀ s, contentType = some s →
        listIndexOf (str "text/html") s = none)) :
    processRequest status contentType chunks = chunks.flatten := by
  unfold processRequest
  rcases h with h | h
  · rw [if_neg h]
  · by_cases hs : status = 200
    · rw [if_pos hs]
      match contentType with
      | none => rfl
      | some ct =>
        dsimp only
        rw [h ct rfl]
        rfl
    · rw [if_neg hs]

/-- C6 witness: a 404 HTML response and a 200 JSON response are both
forwarded unchanged. -/
theorem c6_witness :
    processRequest 404 (some (str "text/html")) [str "<head></head>"] =
      List.flatten [str "<head></head>"] ∧
    processRequest 200 (some (str "application/json")) [str "\x7b\x7d"] =
      List.flatten [str "\x7b\x7d"] :=
  ⟨c6_non_html_passthrough 404 (some (str "text/html"))
      [str "<head></head>"] (Or.inl (by decide)),
    c6_non_html_passthrough 200 (some (str "application/json"))
      [str "\x7b\x7d"] (Or.inr (by intro s hs; cases hs; decide))⟩

/-- C7, counterexample: if the first-chunk charset sniff raises while
the chunk is in scanning mode, the exception is swallowed but the chunk
is NOT forwarded — `content` is still empty when the write guard runs,
so nothing at all is written for this chunk, contradicting "the chunk
is nevertheless forwarded as-is". -/
theorem c7_counterexample :
    stepChunkExc initWState (str "<p>hello")
      (some SpliceExc.duringSniff) = (⟨false, false, []⟩, []) ∧
    str "<p>hello" ≠ ([] : List Nat) :=
  ⟨by decide, by decide⟩

/-- C7 (amended): exceptions in the scan/splice step are suppressed and
the stream is not aborted — the state remains a normal scanning state
and subsequent chunks are processed exactly as without the exception.
An exception raised after the chunk text is assigned (during marker
search or splice) forwards the decoded chunk re-encoded, without
injection; an exception during the first-chunk charset sniff (before
the text is assigned) drops the chunk: nothing is written for it. -/
theorem c7_exception_swallowed (st : WState) (v t p : List Nat)
    (hscan : st.unsupportedCharset = false)
    (hdec : utf8Run st.pending v = some (t, p)) :
    (st.firstChunk = true →
      stepChunkExc st v (some SpliceExc.duringSniff) =
        (⟨false, false, p⟩, [])) ∧
    ((st.firstChunk = true → chunkContainsInvalidCharset t = false) →
      stepChunkExc st v (some SpliceExc.duringSearch) =
        (⟨false, false, p⟩, utf8Encode t)) ∧
    (∀ vs : List (List Nat),
      runChunksExc ⟨false, false, p⟩ vs (List.replicate vs.length none) =
        runChunks ⟨false, false, p⟩ vs) := by
  obtain ⟨fc, uc, pending⟩ := st
  simp only at hscan hdec
  subst hscan
  refine ⟨?_, ?_, fun vs => runChunksExc_none _ vs⟩
  · intro hfc
    subst hfc
    unfold stepChunkExc
    simp only [if_neg (by simp : ¬ (false = true))]
    rw [hdec]
    simp
  · intro hsniff
    unfold stepChunkExc
    simp only [if_neg (by simp : ¬ (false = true))]
    rw [hdec]
    dsimp only
    cases fc
    · rfl
    · rw [if_neg (show ¬ (chunkContainsInvalidCharset t = true) from by
        rw [hsniff rfl]; simp)]
      rfl

/-- C7 witness: the amended statement evaluated on a concrete first
chunk whose text contains the marker (the search-phase exception
suppresses the splice but the chunk is still forwarded). -/
theorem c7_witness :
    (initWState.firstChunk = true →
      stepChunkExc initWState (str "a</head>")
        (some SpliceExc.duringSniff) = (⟨false, false, []⟩, [])) ∧
    ((initWState.firstChunk = true →
        chunkContainsInvalidCharset (str "a</head>") = false) →
      stepChunkExc initWState (str "a</head>")
        (some SpliceExc.duringSearch) =
        (⟨false, false, []⟩, utf8Encode (str "a</head>"))) ∧
    (∀ vs : List (List Nat),
      runChunksExc ⟨false, false, []⟩ vs
        (List.replicate vs.length none) =
        runChunks ⟨false, false, []⟩ vs) :=
  c7_exception_swallowed initWState (str "a</head>") (str "a</head>") []
    (by decide) (by decide)

/-- C8: for every stream and every pattern of read, write and close
errors, the sequence of operations attempted on the output sink ends
with exactly one close — the loop never skips the final
`writer.close()`, and a close error is swallowed, so the client
connection is never left hanging. -/
theorem c8_sink_always_closed (errs : IoErrs) (chunks : List (List Nat)) :
    ∃ ops, modifyHtmlStreamOps errs chunks = ops ++ [SinkOp.close] ∧
      SinkOp.close ∉ ops :=
  streamOpsLoop_close errs chunks initWState 0 0

/-- C10: when the stream ends while still in scanning mode, the bytes
buffered by the incremental decoder (an incomplete trailing multibyte
sequence) are never written: the input bytes equal the re-encoded
decoded text plus the buffered bytes, and (when no marker was found, so
no snippet was spliced) the output is exactly the input minus those
trailing buffered bytes — the loop exits on stream end without a final
flushing decode. -/
theorem c10_pending_never_flushed (chunks ts : List (List Nat))
    (p : List Nat)
    (hscan : scanTextsFrom true [] chunks = some (ts, p)) :
    chunks.flatten = utf8Encode ts.flatten ++ p ∧
    ((∀ t ∈ ts, listIndexOf headMarker t = none) →
      modifyHtmlStream chunks ++ p = chunks.flatten) := by
  have hdec := scan_decode chunks true [] ts p hscan
  have hrt := utf8Run_roundtrip chunks.flatten pendingOk_nil hdec
  have h1 : chunks.flatten = utf8Encode ts.flatten ++ p := by
    have := hrt.1
    simpa using this.symm
  refine ⟨h1, ?_⟩
  intro hnone
  obtain ⟨fc2, hrun⟩ := scan_run chunks true [] ts p hscan
  have hout : modifyHtmlStream chunks = utf8Encode ts.flatten := by
    unfold modifyHtmlStream initWState
    rw [hrun]
    have hmap : ts.map (fun t => utf8Encode (injectSnippet t)) =
        ts.map utf8Encode := by
      apply List.map_congr_left
      intro t ht
      rw [injectSnippet_of_no_marker (hnone t ht)]
    rw [hmap, ← utf8Encode_flatten]
  rw [hout, h1]

/-- C10 witness: a stream ending with the lone lead byte 0xC3; the
output is `ab` and the buffered byte is dropped. -/
theorem c10_witness :
    List.flatten [str "ab" ++ [0xC3]] =
      utf8Encode (List.flatten [str "ab"]) ++ [0xC3] ∧
    ((∀ t ∈ [str "ab"], listIndexOf headMarker t = none) →
      modifyHtmlStream [str "ab" ++ [0xC3]] ++ [0xC3] =
        List.flatten [str "ab" ++ [0xC3]]) :=
  c10_pending_never_flushed [str "ab" ++ [0xC3]] [str "ab"] [0xC3]
    (by decide)

/-- C2, counterexample: a document that already contains the Snippet
text (and exactly one `</head>`, not split) yields an output in which
the Snippet appears twice, so "the Snippet appears exactly once in the
output" fails as stated; the output still equals the input with the
Snippet inserted immediately before the occurrence. -/
theorem c2_counterexample :
    countSubstr (TAG_MANAGER ++ headMarker) headMarker = 1 ∧
    modifyHtmlStream [TAG_MANAGER ++ headMarker] =
      utf8Encode (TAG_MANAGER ++ TAG_MANAGER ++ headMarker) ∧
    countSubstr (TAG_MANAGER ++ TAG_MANAGER ++ headMarker)
      TAG_MANAGER = 2 :=
  ⟨by decide, by decide, by decide⟩

/-- C2 (amended): for a fully decodable document whose decoded text
contains exactly one `</head>` occurrence lying wholly inside one
chunk, the output is the re-encoding of the input text with the Snippet
inserted immediately before that (unique, hence first) occurrence;
provided the Snippet text does not already occur in the document, the
Snippet appears exactly once in the output. -/
theorem c2_single_injection (chunks ts ts1 ts2 : List (List Nat))
    (A B : List Nat)
    (hscan : scanTextsFrom true [] chunks = some (ts, []))
    (hts : ts = ts1 ++ (A ++ headMarker ++ B) :: ts2)
    (hone : countSubstr ts.flatten headMarker = 1)
    (htag : countSubstr ts.flatten TAG_MANAGER = 0) :
    utf8Run [] chunks.flatten = some (ts.flatten, []) ∧
    ts.flatten = (ts1.flatten ++ A) ++ headMarker ++ (B ++ ts2.flatten) ∧
    listIndexOf headMarker ts.flatten = some (ts1.flatten ++ A).length ∧
    modifyHtmlStream chunks =
      utf8Encode ((ts1.flatten ++ A) ++ TAG_MANAGER ++ headMarker ++
        (B ++ ts2.flatten)) ∧
    countSubstr ((ts1.flatten ++ A) ++ TAG_MANAGER ++ headMarker ++
      (B ++ ts2.flatten)) TAG_MANAGER = 1 := by
  obtain ⟨hflat, hidx, hout⟩ := scan_single_marker hscan hts hone
  refine ⟨scan_decode chunks true [] ts [] hscan, hflat, hidx, hout, ?_⟩
  set P := ts1.flatten ++ A with hP
  set S := B ++ ts2.flatten with hS
  have hTn : ¬ TAG_MANAGER <:+: ts.flatten :=
    (countSubstr_eq_zero_iff tagManager_ne_nil).mp htag
  have hPinf : P <:+: ts.flatten := by
    rw [hflat]
    exact ⟨[], headMarker ++ S, by simp [List.append_assoc]⟩
  have hSinf : headMarker ++ S <:+: ts.flatten := by
    rw [hflat]
    exact ⟨P, [], by simp [List.append_assoc]⟩
  have hPn : ¬ TAG_MANAGER <:+: P := fun hinf => hTn (hinf.trans hPinf)
  have hSn : ¬ TAG_MANAGER <:+: (headMarker ++ S) := fun hinf =>
    hTn (hinf.trans hSinf)
  have hcnt := countSubstr_insert tagManager_ne_nil tagManager_borderFree
    hPn hSn
  rw [show P ++ TAG_MANAGER ++ headMarker ++ S =
    P ++ TAG_MANAGER ++ (headMarker ++ S) from by
      simp [List.append_assoc]]
  exact hcnt

/-- C2 witness: a two-chunk document with the marker wholly inside the
second chunk. -/
theorem c2_witness :
    utf8Run [] (List.flatten
      [str "<html><head>", str "</head><body>x"]) =
      some ((List.flatten
        [str "<html><head>", str "</head><body>x"] : List Nat), []) ∧
    (List.flatten [str "<html><head>", str "</head><body>x"] : List Nat) =
      (List.flatten [str "<html><head>"] ++ ([] : List Nat)) ++
        headMarker ++ (str "<body>x" ++ List.flatten ([] : List (List Nat))) ∧
    listIndexOf headMarker
      (List.flatten [str "<html><head>", str "</head><body>x"]) =
      some (List.flatten [str "<html><head>"] ++ ([] : List Nat)).length ∧
    modifyHtmlStream [str "<html><head>", str "</head><body>x"] =
      utf8Encode ((List.flatten [str "<html><head>"] ++ ([] : List Nat)) ++
        TAG_MANAGER ++ headMarker ++
        (str "<body>x" ++ List.flatten ([] : List (List Nat)))) ∧
    countSubstr ((List.flatten [str "<html><head>"] ++ ([] : List Nat)) ++
      TAG_MANAGER ++ headMarker ++
      (str "<body>x" ++ List.flatten ([] : List (List Nat))))
      TAG_MANAGER = 1 := by
  have h := c2_single_injection
    [str "<html><head>", str "</head><body>x"]
    [str "<html><head>", str "</head><body>x"]
    [str "<html><head>"] [] [] (str "<body>x")
    (by decide) (by decide) (by decide) (by decide)
  simpa using h

/-- C3, counterexample: the same bytes delivered as one chunk versus
two chunks (the marker never split across a boundary in either
delivery) produce different outputs — the single chunk is injected once
at its first marker, the two chunks are injected once each. -/
theorem c3_counterexample :
    (str "</head>" ++ str "</head>") =
      List.flatten [str "</head>", str "</head>"] ∧
    modifyHtmlStream [str "</head>" ++ str "</head>"] ≠
      modifyHtmlStream [str "</head>", str "</head>"] :=
  ⟨by decide, by decide⟩

/-- C3 (amended): the concatenated output is invariant under the
chunking of the input bytes provided additionally that the stream
decodes without failure and passes the first-chunk charset sniff under
both chunkings, and the decoded text contains the marker exactly once,
wholly inside one chunk of each chunking. -/
theorem c3_chunking_invariance
    (chunks1 chunks2 ts ts2 u1 u2 v1 v2 : List (List Nat))
    (A B A2 B2 pf pf2 : List Nat)
    (hbytes : chunks1.flatten = chunks2.flatten)
    (hscan1 : scanTextsFrom true [] chunks1 = some (ts, pf))
    (hscan2 : scanTextsFrom true [] chunks2 = some (ts2, pf2))
    (hdecomp1 : ts = u1 ++ (A ++ headMarker ++ B) :: u2)
    (hdecomp2 : ts2 = v1 ++ (A2 ++ headMarker ++ B2) :: v2)
    (hone : countSubstr ts.flatten headMarker = 1) :
    modifyHtmlStream chunks1 = modifyHtmlStream chunks2 := by
  have d1 := scan_decode chunks1 true [] ts pf hscan1
  have d2 := scan_decode chunks2 true [] ts2 pf2 hscan2
  rw [hbytes] at d1
  have hpair := Option.some.inj (d1.symm.trans d2)
  have hTT : ts.flatten = ts2.flatten := congrArg Prod.fst hpair
  have hone2 : countSubstr ts2.flatten headMarker = 1 := by
    rw [← hTT]; exact hone
  obtain ⟨hflat1, hidx1, hout1⟩ := scan_single_marker hscan1 hdecomp1 hone
  obtain ⟨hflat2, hidx2, hout2⟩ := scan_single_marker hscan2 hdecomp2 hone2
  have hidx2b : listIndexOf headMarker ts.flatten =
      some (v1.flatten ++ A2).length := by
    rw [hTT]; exact hidx2
  have hidx12 : (u1.flatten ++ A).length = (v1.flatten ++ A2).length :=
    Option.some.inj (hidx1.symm.trans hidx2b)
  have hPP : u1.flatten ++ A = v1.flatten ++ A2 := by
    have e1 : u1.flatten ++ A =
        (ts.flatten).take (u1.flatten ++ A).length := by
      rw [hflat1, List.append_assoc, List.take_left]
    have e2 : v1.flatten ++ A2 =
        (ts2.flatten).take (v1.flatten ++ A2).length := by
      rw [hflat2, List.append_assoc, List.take_left]
    rw [e1, e2, hTT, hidx12]
  have hSS : B ++ u2.flatten = B2 ++ v2.flatten := by
    have e1 : B ++ u2.flatten =
        (ts.flatten).drop ((u1.flatten ++ A) ++ headMarker).length := by
      rw [hflat1]
      rw [show (u1.flatten ++ A) ++ headMarker ++ (B ++ u2.flatten) =
        ((u1.flatten ++ A) ++ headMarker) ++ (B ++ u2.flatten) from by
          simp [List.append_assoc]]
      rw [List.drop_left]
    have e2 : B2 ++ v2.flatten =
        (ts2.flatten).drop ((v1.flatten ++ A2) ++ headMarker).length := by
      rw [hflat2]
      rw [show (v1.flatten ++ A2) ++ headMarker ++ (B2 ++ v2.flatten) =
        ((v1.flatten ++ A2) ++ headMarker) ++ (B2 ++ v2.flatten) from by
          simp [List.append_assoc]]
      rw [List.drop_left]
    rw [e1, e2, hTT]
    have : ((u1.flatten ++ A) ++ headMarker).length =
        ((v1.flatten ++ A2) ++ headMarker).length := by
      simp only [List.length_append] at hidx12 ⊢
      omega
    rw [this]
  rw [hout1, hout2, hPP, hSS]

/-- C3 witness: `<a></head><b>` delivered whole versus split after the
marker. -/
theorem c3_witness :
    modifyHtmlStream [str "<a></head><b>"] =
      modifyHtmlStream [str "<a></head>", str "<b>"] :=
  c3_chunking_invariance [str "<a></head><b>"]
    [str "<a></head>", str "<b>"]
    [str "<a></head><b>"] [str "<a></head>", str "<b>"]
    [] [] [] [str "<b>"]
    (str "<a>") (str "<b>") (str "<a>") []
    [] []
    (by decide) (by decide) (by decide) (by decide) (by decide) (by decide)

/-- C5: the charset gate produces exact passthrough.  (a) If the
content-type header's `charset=` token (as extracted by the worker's
regex) is outside the supported set, the original body bytes are
returned with no decode attempted.  (b) If the header declares no
charset and the first body chunk's decoded text contains a meta tag
declaring an unsupported charset, the raw first chunk and every
subsequent chunk are forwarded unchanged, so the output equals the
input bytes exactly. -/
theorem c5_charset_gate :
    (∀ (contentType : List Nat) (chunks : List (List Nat))
      (m cs : List Nat),
      execSearch headerCharsetPat contentType = some (m, cs) →
      VALID_CHARSETS.contains (jsToLower cs) = false →
      processHtmlResponse contentType chunks = chunks.flatten) ∧
    (∀ (contentType : List Nat) (v : List Nat) (vs : List (List Nat))
      (t p : List Nat),
      execSearch headerCharsetPat contentType = none →
      utf8Run [] v = some (t, p) →
      chunkContainsInvalidCharset t = true →
      processHtmlResponse contentType (v :: vs) = (v :: vs).flatten) := by
  constructor
  · intro ct chunks m cs hx hv
    unfold processHtmlResponse
    rw [hx]
    dsimp only
    rw [hv]
    rfl
  · intro ct v vs t p hx hdec hsniff
    unfold processHtmlResponse
    rw [hx]
    dsimp only
    unfold modifyHtmlStream
    rw [runChunks_sniff_invalid v vs hdec hsniff]
    simp

/-- C5 witness: `charset=shift_jis` in the header, and a
`windows-1251` meta tag in the first body chunk. -/
theorem c5_witness :
    processHtmlResponse (str "text/html; charset=shift_jis")
      [str "<head></head>"] = List.flatten [str "<head></head>"] ∧
    processHtmlResponse (str "text/html")
      [str "<meta charset=\x22windows-1251\x22><head></head>"] =
      List.flatten [str "<meta charset=\x22windows-1251\x22><head></head>"] := by
  constructor
  · exact c5_charset_gate.1 (str "text/html; charset=shift_jis")
      [str "<head></head>"] (str "charset=shift_jis") (str "shift_jis")
      (by decide) (by decide)
  · exact c5_charset_gate.2 (str "text/html")
      (str "<meta charset=\x22windows-1251\x22><head></head>") []
      (str "<meta charset=\x22windows-1251\x22><head></head>") []
      (by decide) (by decide) (by decide)

/-- C9, counterexample: a response declaring `charset=iso-8859-1` whose
body contains bytes ≥ 0x80 that happen to be valid UTF-8 (0xC3 0xA9,
i.e. ISO-8859-1 `Ã©`) does NOT fail decode and is NOT switched to
passthrough: it is rewritten (the Snippet is injected), refuting "the
first chunk containing such a byte fails decode and the stream switches
to raw passthrough". -/
theorem c9_counterexample :
    (([0xC3, 0xA9] ++ str "</head>").any (fun b => decide (128 ≤ b)) =
      true) ∧
    (runChunks initWState
      [[0xC3, 0xA9] ++ str "</head>"]).1.unsupportedCharset = false ∧
    processHtmlResponse (str "text/html; charset=iso-8859-1")
      [[0xC3, 0xA9] ++ str "</head>"] ≠
      List.flatten [[0xC3, 0xA9] ++ str "</head>"] ∧
    countSubstr (processHtmlResponse (str "text/html; charset=iso-8859-1")
      [[0xC3, 0xA9] ++ str "</head>"]) TAG_MANAGER = 1 :=
  ⟨by decide, by decide, by decide, by decide⟩

/-- C9 (amended): the decoder is strict UTF-8 regardless of the
declared charset — a response declaring the supported charset
`iso-8859-1` passes the gate unchanged into the UTF-8 pipeline, and any
chunk whose bytes fail strict UTF-8 decoding (as typical non-ASCII
ISO-8859-1 text does, though not every byte ≥ 0x80) switches the stream
to raw passthrough for its remainder, so such documents are not
injected from that point on. -/
theorem c9_utf8_decoder_always (ct m cs : List Nat)
    (pre : List (List Nat)) (v : List Nat) (post : List (List Nat))
    (hx : execSearch headerCharsetPat ct = some (m, cs))
    (hcs : jsToLower cs = str "iso-8859-1")
    (hscan : (runChunks initWState pre).1.unsupportedCharset = false)
    (hfail : utf8Run (runChunks initWState pre).1.pending v = none) :
    processHtmlResponse ct (pre ++ v :: post) =
      (runChunks initWState pre).2 ++ (v ++ post.flatten) := by
  unfold processHtmlResponse
  rw [hx]
  dsimp only
  rw [hcs]
  rw [if_pos (by decide :
    VALID_CHARSETS.contains (str "iso-8859-1") = true)]
  unfold modifyHtmlStream
  rw [runChunks_append]
  rw [runChunks_decode_fail (runChunks initWState pre).1 v post hscan hfail]

/-- C9 witness: `charset=iso-8859-1` declared; the body byte 0xE9
(ISO-8859-1 `é`) followed by ASCII fails strict UTF-8 decode and the
remainder of the stream (including a later `</head>`) is forwarded
raw, uninjected. -/
theorem c9_witness :
    processHtmlResponse (str "text/html; charset=iso-8859-1")
      ([] ++ ([0xE9] ++ str "x") :: [str "</head>"]) =
      (runChunks initWState []).2 ++
        (([0xE9] ++ str "x") ++ List.flatten [str "</head>"]) :=
  c9_utf8_decoder_always (str "text/html; charset=iso-8859-1")
    (str "charset=iso-8859-1") (str "iso-8859-1") []
    ([0xE9] ++ str "x") [str "</head>"]
    (by decide) (by decide) (by decide) (by decide)
